import Mathlib

/-!
Verification of the core of `lv`, an interactive log viewer
(`src/internal/ui/model.go` and the streaming batcher in `src/unnamed/part_000`).

Strings are embedded at rune granularity as `List Char` (Go strings are
UTF-8; all offset arithmetic in the viewer that we model is done per rune,
see the comments at the individual definitions).  External engines that the
viewer calls out to (the Go `regexp` package, `time` parsing behind
`extractDate`, the `lipgloss` word-wrapper, `go-runewidth` and the ANSI
stripper's regex) are abstracted as parameters collected in `Env`; every
theorem below holds for an arbitrary `Env`, i.e. for any behaviour of those
engines, and witnesses instantiate them concretely.
-/

namespace LV

/-- One stored line, at rune granularity (Go `string`, indexed by rune). -/
abbrev Line := List Char

/-- Go `strings.Contains hay sub` (rune-level view of byte containment;
the two coincide on well-formed UTF-8). -/
def containsSub (hay sub : Line) : Bool := decide (sub <:+: hay)

/-- Go `strings.ToLower`, per rune.  (Lean's `Char.toLower` agrees with Go
on ASCII, which is all the filter comparisons in scope exercise.) -/
def toLowerLine (l : Line) : Line := l.map Char.toLower

/-- Go `strings.ReplaceAll line "\t" "    "` — tab normalization applied to
every line entering the FilteredView (model.go lines 725 and 807). -/
def tabNorm (l : Line) : Line :=
  l.flatMap (fun c => if c = '\t' then "    ".toList else [c])

/-- Timestamps extracted from lines, abstracted as integers ordered like
`time.Time` (`Before` = `<`, `After` = `>`). -/
abbrev Date := Int

/-- The external engines the viewer delegates to.  Each field abstracts a
library call whose internals no claim in scope depends on. -/
structure Env where
  /-- Go `regexp.Compile` followed by `MatchString`: `none` models a pattern
  that fails to compile (model.go line 753/757: on error `m.regex = nil`). -/
  compileRx : Line → Option (Line → Bool)
  /-- `extractDate` (model.go line 1336): date-regex search plus `time.Parse`;
  `none` models "no timestamp found / parse failure". -/
  extractDate : Line → Option Date
  /-- `stripAnsi` (model.go line 1316): removal of zero-width ANSI control
  sequences by `ansiRegex`. -/
  stripAnsi : Line → Line
  /-- `runewidth.RuneWidth`: visual width of one rune (1 or 2 in practice). -/
  runeWidth : Char → Nat
  /-- `lipgloss.NewStyle().Width(w).Render` followed by splitting on
  newlines: the greedy word-wrapper producing the visual segments of one
  logical line (model.go lines 1625-1626). -/
  wrapText : Int → Line → List Line
  /-- The `lipgloss` style applied to the fold summary line
  (model.go line 828) — a cosmetic transform of the summary text. -/
  styleSummary : Line → Line

/-- The declarative filter criteria (the filter-relevant fields of
`Model`, model.go lines 82-114, grouped as in spec §3 `FilterSpec`). -/
structure FilterSpec where
  showError : Bool
  showWarn : Bool
  showInfo : Bool
  showDebug : Bool
  regexMode : Bool
  filterText : Line
  startDate : Option Date
  endDate : Option Date
  foldStackTraces : Bool

/-- Stage 1, level filtering (model.go lines 765-777): a line containing a
level marker is dropped when that level's visibility flag is off. -/
def passesLevel (s : FilterSpec) (l : Line) : Bool :=
  !(containsSub l "ERROR".toList && !s.showError) &&
  !(containsSub l "WARN".toList && !s.showWarn) &&
  !(containsSub l "INFO".toList && !s.showInfo) &&
  !(containsSub l "DEBUG".toList && !s.showDebug)

/-- Stage 2, date-range filtering (model.go lines 779-790): only active when
a bound is set; lines without an extractable timestamp always pass. -/
def passesDate (env : Env) (s : FilterSpec) (l : Line) : Bool :=
  if s.startDate.isSome || s.endDate.isSome then
    match env.extractDate l with
    | some t =>
      !(match s.startDate with
        | some sd => decide (t < sd)
        | none => false) &&
      !(match s.endDate with
        | some ed => decide (ed < t)
        | none => false)
    | none => true
  else true

/-- Stage 3, text/regex filtering (model.go lines 792-804).  In regex mode
the line is dropped only when the compiled regex exists and does not match
(`m.regex != nil && !m.regex.MatchString(line)`); a failed compilation
(`none`) therefore lets every line pass. -/
def passesText (env : Env) (s : FilterSpec) (l : Line) : Bool :=
  if s.filterText = [] then true
  else if s.regexMode then
    match env.compileRx s.filterText with
    | some rx => rx l
    | none => true
  else containsSub (toLowerLine l) (toLowerLine s.filterText)

/-- One line survives the three filter stages (model.go lines 764-804). -/
def passesAll (env : Env) (s : FilterSpec) (l : Line) : Bool :=
  passesLevel s l && passesDate env s l && passesText env s l

/-- The filter loop of `applyFilters` (model.go lines 764-810): keep the
lines passing all three stages, tab-normalized. -/
def filterStage (env : Env) (s : FilterSpec) (lines : List Line) : List Line :=
  (lines.filter (passesAll env s)).map tabNorm

/-- Fold-stage indentation heuristic (model.go line 838): first character is
a tab, or the line starts with at least two spaces. -/
def isIndented (l : Line) : Bool :=
  "\t".toList.isPrefixOf l || "  ".toList.isPrefixOf l

/-- The unstyled text of the synthetic fold summary line
(model.go line 826). -/
def summaryText (k : Nat) : Line :=
  ("  [+] " ++ toString k ++ " lines folded (stack trace/indented block)...").toList

/-- `flushTrace` (model.go lines 819-833): a buffered run of length 1 is
emitted unchanged, a longer one collapses to one styled summary line. -/
def flushTrace (env : Env) (buf : List Line) : List Line :=
  if buf.length = 0 then []
  else if buf.length = 1 then buf
  else [env.styleSummary (summaryText buf.length)]

/-- The fold loop of `applyFilters` (model.go lines 835-847), with the
pending buffer of consecutive indented lines as accumulator. -/
def foldLoop (env : Env) : List Line → List Line → List Line
  | [], buf => flushTrace env buf
  | l :: ls, buf =>
    if isIndented l then foldLoop env ls (buf ++ [l])
    else flushTrace env buf ++ l :: foldLoop env ls []

/-- The optional post-filter fold stage (model.go lines 815-848). -/
def foldStage (env : Env) (lines : List Line) : List Line := foldLoop env lines []

/-- The full pass of `applyFilters` as a pure function of the raw store and
the filter spec (model.go lines 744-851). -/
def applyFiltersPure (env : Env) (s : FilterSpec) (lines : List Line) : List Line :=
  let filtered := filterStage env s lines
  if s.foldStackTraces then foldStage env filtered else filtered

/-- A screen/selection point (model.go lines 53-56, Go `Point{X, Y}`). -/
structure Point where
  x : Int
  y : Int
deriving DecidableEq

/-- The core mutable state of the viewer (the fields of Go `Model`,
model.go lines 68-131, that the specified core reads or writes; rendering-
and input-widget state is out of scope).  `layoutCache` models the Go
`map[int][]string` as an association list, `bookmarks` the
`map[int]struct{}` as a duplicate-free list of keys. -/
structure Model where
  originalLines : List Line
  filteredLines : List Line
  showError : Bool
  showWarn : Bool
  showInfo : Bool
  showDebug : Bool
  regexMode : Bool
  filterText : Line
  startDate : Option Date
  endDate : Option Date
  foldStackTraces : Bool
  wrap : Bool
  xOffset : Int
  yOffset : Int
  screenWidth : Int
  /-- `m.viewport.Height` — the height of the visible window. -/
  viewportHeight : Int
  following : Bool
  fileSize : Int
  bookmarks : List Int
  selectionStart : Option Point
  selectionEnd : Option Point
  selecting : Bool
  layoutCache : List (Int × List Line)

/-- The filter-relevant projection of the state (spec §3 `FilterSpec`). -/
def Model.spec (m : Model) : FilterSpec :=
  { showError := m.showError, showWarn := m.showWarn, showInfo := m.showInfo
    showDebug := m.showDebug, regexMode := m.regexMode, filterText := m.filterText
    startDate := m.startDate, endDate := m.endDate
    foldStackTraces := m.foldStackTraces }

/-- Go map read `m.layoutCache[idx]`. -/
def cacheLookup (c : List (Int × List Line)) (i : Int) : Option (List Line) :=
  (c.find? (fun e => e.1 = i)).map (fun e => e.2)

/-- Go `delete(m.layoutCache, i)`. -/
def cacheErase (c : List (Int × List Line)) (i : Int) : List (Int × List Line) :=
  c.filter (fun e => !(e.1 = i : Bool))

/-- Go map membership `_, ok := m.bookmarks[i]`. -/
def bmMem (bs : List Int) (i : Int) : Bool := decide (i ∈ bs)

/-- The bookmark toggle of the `"m"` key (model.go lines 575-580). -/
def bmToggle (bs : List Int) (i : Int) : List Int :=
  if bmMem bs i then bs.erase i else i :: bs

/-- `applyFilters` as a state transition (model.go lines 744-870): recompute
the FilteredView from the raw store; with `resetView` also clear selection,
bookmarks, the scroll offset and the layout cache (lines 853-869). -/
def Model.applyFilters (env : Env) (m : Model) (resetView : Bool) : Model :=
  let fl := applyFiltersPure env m.spec m.originalLines
  if resetView then
    { m with filteredLines := fl, selectionStart := none, selectionEnd := none,
             bookmarks := [], yOffset := 0, layoutCache := [] }
  else
    { m with filteredLines := fl }

/-- `canFastAppendWithoutRefilter` (model.go lines 705-714). -/
def Model.canFastAppendWithoutRefilter (m : Model) : Bool :=
  m.filterText.isEmpty &&
  m.startDate.isNone &&
  m.endDate.isNone &&
  m.showError &&
  m.showWarn &&
  m.showInfo &&
  m.showDebug &&
  !m.foldStackTraces

/-- `appendIncomingLines` (model.go lines 716-733): grow the raw store; on
the permissive fast path append tab-normalized lines directly to the
FilteredView, otherwise run a full non-resetting filter pass. -/
def Model.appendIncomingLines (env : Env) (m : Model) (newLines : List Line) : Model :=
  if newLines = [] then m
  else
    let m1 := { m with originalLines := m.originalLines ++ newLines }
    if m1.canFastAppendWithoutRefilter then
      { m1 with filteredLines := m1.filteredLines ++ newLines.map tabNorm }
    else
      m1.applyFilters env false

/-- Go `strings.Split content "\n"` at rune granularity. -/
def splitOnNl : List Char → List Line
  | [] => [[]]
  | c :: rest =>
    if c = '\n' then [] :: splitOnNl rest
    else
      match splitOnNl rest with
      | [] => [[c]]
      | l :: ls => (c :: l) :: ls

/-- `splitIncomingContent` (model.go lines 735-742): split a growth delta on
newlines and drop the trailing empty element a terminal `'\n'` produces. -/
def splitIncomingContent (content : List Char) : List Line :=
  let lines := splitOnNl content
  if lines.getLast? = some [] then lines.dropLast else lines

/-- The two-rune bookmark marker `"🔖 "` prepended to a bookmarked line
(model.go lines 1621 and 1719: `utf8.RuneCountInString("🔖 ")` = 2). -/
def bookmarkMark : Line := ['🔖', ' ']

/-- The plain text resolvePos wraps: the ANSI-stripped line, with the
bookmark marker prepended when the line is bookmarked
(model.go lines 1619-1622). -/
def decoratePlain (env : Env) (bookmarked : Bool) (l : Line) : Line :=
  let plain := env.stripAnsi l
  if bookmarked then bookmarkMark ++ plain else plain

/-- Go `strings.Index hay sub` at rune granularity: index of the first
occurrence of `sub` in `hay`, `none` for Go's `-1`.  (Go returns a byte
index; on well-formed UTF-8 the byte index of a match is the byte offset of
the same rune position, and all slicing in `resolvePos` happens at these
match boundaries, so the rune-level view is faithful.) -/
def findSub (sub : Line) : Line → Option Nat
  | [] => if sub.isPrefixOf [] then some 0 else none
  | c :: t =>
    if sub.isPrefixOf (c :: t) then some 0
    else (findSub sub t).map (fun n => n + 1)

/-- The segment-skipping loop of `resolvePos` (model.go lines 1651-1678):
advance the rune offset into the plain line over the first `localRow` wrap
segments, accounting for whitespace the wrapper consumed (`matchIdx > 0`)
and falling back to the segment length when a segment cannot be located
(`matchIdx == -1`).  The Go code tracks a byte offset and a rune offset in
lockstep; at rune granularity one offset suffices. -/
def advanceParts (clean : Line) : List Line → Nat → Nat
  | [], pos => pos
  | part :: rest, pos =>
    if pos ≥ clean.length then pos
    else
      match findSub part (clean.drop pos) with
      | none => advanceParts clean rest (pos + part.length)
      | some j => advanceParts clean rest (pos + j + part.length)

/-- The rune-width scan inside the target segment (model.go lines
1694-1707): find the index of the rune covering `visualX`, defaulting to
one past the last rune. -/
def scanWidth (env : Env) (visualX : Int) : Line → Nat → Nat → Nat
  | [], rIdx, _ => rIdx
  | r :: rest, rIdx, cw =>
    let w := env.runeWidth r
    if (cw : Int) + w > visualX then rIdx
    else scanWidth env visualX rest (rIdx + 1) (cw + w)

/-- The character math of `resolvePos` once the target logical line is found
(model.go lines 1632-1727): locate the clicked segment's start inside the
plain text, add the in-segment rune index covering `visualX`, and undo the
bookmark marker prefix. -/
def resolveInLine (env : Env) (bookmarked : Bool) (visualX : Int) (clean : Line)
    (parts : List Line) (localRow : Nat) : Int :=
  let pos := advanceParts clean (parts.take localRow) 0
  let currentPart := parts.getD localRow []
  let startOfLine :=
    if pos < clean.length then
      match findSub currentPart (clean.drop pos) with
      | some j => pos + j
      | none => pos
    else pos
  let foundIdx := scanWidth env visualX currentPart 0 0
  let finalIdx : Int := (startOfLine : Int) + foundIdx
  if bookmarked then
    let f := finalIdx - bookmarkMark.length
    if f < 0 then 0 else f
  else finalIdx

/-- The wrap-mode line walk of `resolvePos` (model.go lines 1604-1737):
accumulate per-line visual heights from the cache (or a fresh wrap on a
miss) until the segment containing `visualY` is found; past the wrapped
content the walk falls through to the sentinel `(-1, -1)`. -/
def resolveWrapLoop (env : Env) (width : Int) (cache : List (Int × List Line))
    (bms : List Int) (visualX visualY : Int) :
    List Line → Int → Int → Int × Int
  | [], _, _ => (-1, -1)
  | line :: rest, idx, curY =>
    let parts :=
      match cacheLookup cache idx with
      | some p => p
      | none => env.wrapText width (decoratePlain env (bmMem bms idx) line)
    let h := parts.length
    if visualY < curY + h then
      let clean := decoratePlain env (bmMem bms idx) line
      let localRow := (visualY - curY).toNat
      (idx, resolveInLine env (bmMem bms idx) visualX clean parts localRow)
    else
      let nextY := curY + h
      if nextY > visualY then (-1, -1)
      else resolveWrapLoop env width cache bms visualX visualY rest (idx + 1) nextY

/-- The effective wrap width of `resolvePos` (model.go lines 1593-1596). -/
def Model.resolveWidth (m : Model) : Int :=
  if m.screenWidth ≤ 0 then 80 else m.screenWidth

/-- `resolvePos` (model.go lines 1581-1738): map a screen coordinate to a
logical (line, column) pair.  No-wrap mode is the closed form of lines
1582-1591; wrap mode walks the wrapped lines from the scroll offset. -/
def Model.resolvePos (env : Env) (m : Model) (visualX visualY : Int) : Int × Int :=
  if !m.wrap then
    let logicalLine := m.yOffset + visualY
    let gutterOffset : Int := 3
    let lx := m.xOffset + visualX - gutterOffset
    let logicalX := if lx < 0 then 0 else lx
    (logicalLine, logicalX)
  else
    resolveWrapLoop env m.resolveWidth m.layoutCache m.bookmarks visualX visualY
      (m.filteredLines.drop m.yOffset.toNat) m.yOffset 0

/-- The keys of the normal-mode dispatch of `Update` that mutate the core
state (model.go lines 447-668).  Keys that only switch input modes or
overlays (`/`, `[`, `]`, `J`, `?`, `q`, `y`, `t`) leave the core state of
§3 untouched and are not modelled. -/
inductive Key
  | up | down | pgup | pgdown | home | endG
  | left | right
  | wrapToggle
  | clearAll
  | follow
  | foldToggle
  | esc
  | digit1 | digit2 | digit3 | digit4
  | regexToggle
  | bookmark
  | nextBookmark | prevBookmark
deriving DecidableEq

/-- The messages `Update` consumes that reach the core state: a growth
delta (`FileChangeMsg` without error, model.go lines 222-245), a line batch
(`LogChunkMsg` without error, lines 248-265), a resize
(`tea.WindowSizeMsg`, lines 270-292), a key press in normal mode, and the
wheel events (lines 644-668; `modifier` is shift/alt/ctrl held). -/
inductive Msg
  | fileChange (newContent : List Char) (newOffset : Int)
  | logChunk (lines : List Line)
  | windowSize (width height : Int)
  | key (k : Key)
  | wheelUp (modifier : Bool)
  | wheelDown (modifier : Bool)

/-- Header and footer heights (model.go lines 173-174). -/
def headerHeight : Int := 3
def footerHeight : Int := 3

/-- The terminal clamp of `Update` (model.go lines 671-687): force the
scroll offset into `[0, max 0 (len(filteredLines) - height)]` and drop
follow mode when not at the bottom. -/
def Model.clampY (m : Model) : Model :=
  let y0 := if m.yOffset < 0 then 0 else m.yOffset
  let maxOffset := max 0 ((m.filteredLines.length : Int) - m.viewportHeight)
  let y1 := if y0 > maxOffset then maxOffset else y0
  let fol := if y1 < maxOffset then false else m.following
  { m with yOffset := y1, following := fol }

/-- The follow-mode jump to the bottom used by the append handlers and the
`f` key (model.go lines 233-239, 254-259, 538-543). -/
def Model.gotoBottom (m : Model) : Model :=
  let y := (m.filteredLines.length : Int) - m.viewportHeight
  { m with yOffset := if y < 0 then 0 else y }

/-- The normal-mode key dispatch (the two `tea.KeyMsg` switches of `Update`,
model.go lines 438-669), before the terminal clamp. -/
def Model.handleKey (env : Env) (m : Model) : Key → Model
  | .esc =>
    if m.selectionStart.isSome then
      { m with selectionStart := none, selectionEnd := none }
    else
      ({ m with filterText := [], startDate := none, endDate := none }).applyFilters env true
  | .digit1 => ({ m with showError := !m.showError }).applyFilters env true
  | .digit2 => ({ m with showWarn := !m.showWarn }).applyFilters env true
  | .digit3 => ({ m with showInfo := !m.showInfo }).applyFilters env true
  | .digit4 => ({ m with showDebug := !m.showDebug }).applyFilters env true
  | .regexToggle => ({ m with regexMode := !m.regexMode }).applyFilters env true
  | .right => { m with xOffset := m.xOffset + 5 }
  | .left =>
    let x := m.xOffset - 5
    { m with xOffset := if x < 0 then 0 else x }
  | .wrapToggle => { m with wrap := !m.wrap }
  | .clearAll =>
    ({ m with startDate := none, endDate := none, filterText := [],
              regexMode := false }).applyFilters env true
  | .follow =>
    let m1 := { m with following := !m.following }
    if m1.following then m1.gotoBottom else m1
  | .foldToggle => ({ m with foldStackTraces := !m.foldStackTraces }).applyFilters env true
  | .bookmark =>
    let row := m.yOffset
    { m with bookmarks := bmToggle m.bookmarks row,
             layoutCache := cacheErase m.layoutCache row }
  | .nextBookmark =>
    let start := m.yOffset + 1
    match (m.bookmarks.filter (fun r => start ≤ r)).min? with
    | some next => { m with yOffset := next }
    | none => m
  | .prevBookmark =>
    let start := m.yOffset - 1
    match (m.bookmarks.filter (fun r => r ≤ start)).max? with
    | some prev => { m with yOffset := prev }
    | none => m
  | .up => { m with yOffset := m.yOffset - 1 }
  | .down => { m with yOffset := m.yOffset + 1 }
  | .pgup => { m with yOffset := m.yOffset - m.viewportHeight }
  | .pgdown => { m with yOffset := m.yOffset + m.viewportHeight }
  | .home => { m with yOffset := 0 }
  | .endG => { m with yOffset := (m.filteredLines.length : Int) - m.viewportHeight }

/-- `Update` (model.go lines 215-703) over the modelled messages.  The
resize handler returns before the final clamp (line 291); the `esc` branch
with an active selection likewise returns early (line 461); every other
modelled path falls through to `clampY`. -/
def Model.update (env : Env) (m : Model) : Msg → Model
  | .fileChange newContent newOffset =>
    let m1 :=
      if newContent ≠ [] then
        let m2 := { m.appendIncomingLines env (splitIncomingContent newContent)
                    with fileSize := newOffset }
        if m2.following then m2.gotoBottom else m2
      else m
    m1.clampY
  | .logChunk lines =>
    let m1 :=
      if lines ≠ [] then
        let m2 := m.appendIncomingLines env lines
        if m2.following then m2.gotoBottom else m2
      else m
    m1.clampY
  | .windowSize w h =>
    { m with screenWidth := w,
             viewportHeight := h - (headerHeight + footerHeight),
             layoutCache := [] }
  | .key k =>
    if k = .esc ∧ m.selectionStart.isSome then m.handleKey env k
    else (m.handleKey env k).clampY
  | .wheelUp modifier =>
    let m1 :=
      if modifier then
        let x := m.xOffset - 5
        { m with xOffset := if x < 0 then 0 else x }
      else { m with yOffset := m.yOffset - 1 }
    m1.clampY
  | .wheelDown modifier =>
    let m1 :=
      if modifier then { m with xOffset := m.xOffset + 5 }
      else { m with yOffset := m.yOffset + 1 }
    m1.clampY

/-- The batching configuration of the streamer.  `NewStreamer`
(src/unnamed/part_000 lines 24-62) uses `batchLines = 100` and
`flushEvery = 50` milliseconds; `InitialModel` (model.go lines 136-145)
selects a latency-favoring 200/50ms and a throughput-favoring 5000/100ms
variant.  Arrival times are abstract naturals in the interval unit. -/
structure StreamerCfg where
  batchLines : Nat
  flushEvery : Nat

/-- The scan loop of `NewStreamer` (src/unnamed/part_000 lines 34-51): each
scanned line carries its arrival stamp (the value of `time.Now()` when it
is processed, with the stream start at 0); after appending a line the batch
is flushed when it has reached `batchLines` lines or more than `flushEvery`
has elapsed since the last flush, and end-of-stream flushes a nonempty
remainder. -/
def streamLoop (cfg : StreamerCfg) :
    List (Line × Nat) → List Line → Nat → List (List Line)
  | [], batch, _ => if batch.length > 0 then [batch] else []
  | (l, t) :: rest, batch, lastSend =>
    let batch1 := batch ++ [l]
    if batch1.length ≥ cfg.batchLines || t - lastSend > cfg.flushEvery then
      batch1 :: streamLoop cfg rest [] t
    else
      streamLoop cfg rest batch1 lastSend

/-- The full batch sequence a stamped source produces
(src/unnamed/part_000 lines 30-59). -/
def streamBatches (cfg : StreamerCfg) (input : List (Line × Nat)) : List (List Line) :=
  streamLoop cfg input [] 0

/-! ### Spec-side reformulations used to state the claims -/

/-- Helper: `dropWhile` never lengthens a list. -/
def lengthDropWhileLe (p : Line → Bool) :
    ∀ l : List Line, (l.dropWhile p).length ≤ l.length
  | [] => le_refl _
  | x :: xs => by
    rw [List.dropWhile_cons]
    split
    · exact le_trans (lengthDropWhileLe p xs) (Nat.le_succ _)
    · exact le_refl _

/-- Spec-side restatement of the fold contract (spec §4.3 step 4): process
the input by maximal runs — a non-indented line is emitted unchanged, a
maximal run of `k` consecutive indented lines is emitted unchanged when
`k = 1` and collapses to the one summary line stating `k` when `k ≥ 2`. -/
def foldRunsSpec (env : Env) : List Line → List Line
  | [] => []
  | l :: ls =>
    if isIndented l then
      let run := l :: ls.takeWhile isIndented
      let rest := ls.dropWhile isIndented
      (if run.length = 1 then run else [env.styleSummary (summaryText run.length)]) ++
        foldRunsSpec env rest
    else l :: foldRunsSpec env ls
termination_by l => l.length
decreasing_by
  · exact Nat.lt_succ_of_le (lengthDropWhileLe isIndented ls)
  · exact Nat.lt_succ_of_le (le_refl _)

/-- Spec-side chunking (spec §8 "Batching"): split a list into consecutive
chunks of `n` lines plus a final remainder.  (For `n = 0`, which the
batcher never uses, the equation degenerates to singleton chunks so the
recursion terminates.) -/
def chunked (n : Nat) : List Line → List (List Line)
  | [] => []
  | l :: ls => (l :: ls).take n :: chunked n (ls.drop (n - 1))
termination_by l => l.length
decreasing_by
  · exact Nat.lt_succ_of_le (le_trans (List.length_drop _ _ ▸ Nat.sub_le _ _) (le_refl _))

/-- A layout-cache entry is coherent when it stores exactly the wrap of the
decorated text of the line it is keyed by, for the current width, content
and decoration state (the `LayoutEntry` validity invariant of spec §3). -/
def cacheConsistent (env : Env) (m : Model) : Prop :=
  ∀ i parts, cacheLookup m.layoutCache i = some parts →
    parts = env.wrapText m.resolveWidth
      (decoratePlain env (bmMem m.bookmarks i) (m.filteredLines.getD i.toNat []))

/-- The modelled `Update` paths that fall through to the final scroll clamp
(model.go lines 671-681): everything except the resize handler's early
return (line 291) and the `esc`-with-active-selection early return
(line 461). -/
def reachesFinalClamp (m : Model) : Msg → Bool
  | .windowSize _ _ => false
  | .key k => !(decide (k = Key.esc) && m.selectionStart.isSome)
  | _ => true

/-! ### Concrete instances used by witnesses and counterexamples -/

/-- A concrete engine bundle: an engine on which every regex fails to
compile, no line carries a timestamp, all runes are width 1, and wrapping
hard-chunks at the width — a legal instantiation of the abstracted
libraries. -/
def envTriv : Env :=
  { compileRx := fun _ => none
    extractDate := fun _ => none
    stripAnsi := id
    runeWidth := fun _ => 1
    wrapText := fun w l => if w ≤ 0 then [l] else l.toChunks w.toNat
    styleSummary := id }

/-- The default permissive filter spec (`InitialModel`, model.go
lines 177-181 and 192): all levels visible, no pattern, no dates, no fold. -/
def specPermissive : FilterSpec :=
  { showError := true, showWarn := true, showInfo := true, showDebug := true
    regexMode := false, filterText := [], startDate := none, endDate := none
    foldStackTraces := false }

/-- A baseline concrete state under the permissive spec. -/
def baseModel : Model :=
  { originalLines := [], filteredLines := []
    showError := true, showWarn := true, showInfo := true, showDebug := true
    regexMode := false, filterText := [], startDate := none, endDate := none
    foldStackTraces := false, wrap := false, xOffset := 0, yOffset := 0
    screenWidth := 0, viewportHeight := 10, following := false, fileSize := 0
    bookmarks := [], selectionStart := none, selectionEnd := none
    selecting := false, layoutCache := [] }

/-- The single-line store of the spec's resolve round-trip scenario:
`"Hello World"`, no-wrap, bookmark on line 0. -/
def mHello : Model :=
  { baseModel with
    originalLines := ["Hello World".toList]
    filteredLines := ["Hello World".toList]
    bookmarks := [0] }

/-- A one-line wrapped store used to probe out-of-range coordinates. -/
def mShort : Model :=
  { baseModel with
    originalLines := [['a']]
    filteredLines := [['a']]
    wrap := true
    screenWidth := 10 }

/-- A state with an active text filter (so the append fast path is off), a
bookmark, a cached layout entry and an active selection. -/
def mFiltered : Model :=
  { baseModel with
    originalLines := ["x one".toList]
    filteredLines := ["x one".toList]
    filterText := ['x']
    bookmarks := [0]
    layoutCache := [(0, [['a']])]
    selectionStart := some ⟨0, 0⟩
    selectionEnd := some ⟨1, 0⟩ }

/-- A one-line permissive-spec store used by the fast-path witness. -/
def mA : Model :=
  { baseModel with originalLines := ["a".toList], filteredLines := ["a".toList] }

/-- A tall store scrolled near the bottom of a small window. -/
def mTall : Model :=
  { baseModel with
    originalLines := List.replicate 100 ['a']
    filteredLines := List.replicate 100 ['a']
    yOffset := 90 }

/-! ### Theorems -/

/-- C5: in no-wrap mode, for every input coordinate, `resolvePos` returns
logical line = vertical scroll offset + visualY and logical column =
horizontal scroll offset + visualX minus the fixed 3-column gutter, with a
negative column clamped to 0. -/
theorem c5_nowrap_resolve (env : Env) (m : Model) (x y : Int) (h : m.wrap = false) :
    m.resolvePos env x y = (m.yOffset + y, max 0 (m.xOffset + x - 3)) := by
  have hmax : ∀ a : Int, (if a < 0 then 0 else a) = max 0 a := by intro a; omega
  simp only [Model.resolvePos, h, Bool.not_false, if_pos, hmax]

/-- C5 witness: on the `"Hello World"` store with a bookmark on line 0,
clicking the first column after the 3-column gutter resolves to logical
column 0 and clicking 6 columns further resolves to logical column 6. -/
theorem c5_nowrap_resolve_witness :
    mHello.wrap = false ∧
    mHello.resolvePos envTriv 3 0 = (0, 0) ∧
    mHello.resolvePos envTriv 9 0 = (0, 6) := by
  refine ⟨rfl, ?_, ?_⟩
  · rw [c5_nowrap_resolve envTriv mHello 3 0 rfl]; decide
  · rw [c5_nowrap_resolve envTriv mHello 9 0 rfl]; decide

/-- C1 counterexample: with regex mode on and the non-empty pattern `"("`
failing to compile (the engine returns `none`), the filter pass over the
store `["hello"]` yields `["hello"]`, not the empty FilteredView the claim
asserts. -/
theorem c1_invalid_regex_counterexample :
    envTriv.compileRx ['('] = none ∧
    applyFiltersPure envTriv
        { specPermissive with regexMode := true, filterText := ['('] }
        ["hello".toList] =
      ["hello".toList] ∧
    ["hello".toList] ≠ ([] : List Line) := by
  refine ⟨rfl, by decide, by decide⟩

/-- C1 amended: an invalid regex (non-empty pattern, regex mode on,
compilation fails) makes the text/regex stage drop no line at all — the
full pass behaves exactly as if no text pattern were set, so the
FilteredView is the output of the level and date stages, not empty. -/
theorem c1_invalid_regex_passes_all (env : Env) (s : FilterSpec) (lines : List Line)
    (hm : s.regexMode = true) (hft : s.filterText ≠ [])
    (hc : env.compileRx s.filterText = none) :
    applyFiltersPure env s lines =
      applyFiltersPure env { s with filterText := [] } lines := by
  have ht : ∀ l, passesText env s l = true := by
    intro l
    unfold passesText
    rw [if_neg hft, hm, if_pos rfl, hc]
  have hall : passesAll env s = passesAll env { s with filterText := [] } := by
    funext l
    have ht2 : passesText env { s with filterText := [] } l = true := by
      unfold passesText
      simp
    unfold passesAll
    rw [ht l, ht2]
    rfl
  unfold applyFiltersPure filterStage
  rw [hall]

/-- C1 witness: a concrete run of the amended statement. -/
theorem c1_invalid_regex_passes_all_witness :
    applyFiltersPure envTriv
        { specPermissive with regexMode := true, filterText := ['('] }
        ["a".toList, "b".toList] =
      applyFiltersPure envTriv
        { specPermissive with regexMode := true, filterText := [] }
        ["a".toList, "b".toList] := by
  exact c1_invalid_regex_passes_all envTriv
    { specPermissive with regexMode := true, filterText := ['('] }
    ["a".toList, "b".toList] rfl (by decide) rfl

/-- C3 counterexample: in a state with an active text filter (so the fast
path is off), a bookmark, a cached layout entry and an active selection, an
incoming append triggers a full filter pass that recomputes the
FilteredView — yet bookmarks, selection and the layout cache all survive,
contradicting the claim that every full-pass recomputation clears them. -/
theorem c3_append_keeps_marks_counterexample :
    mFiltered.canFastAppendWithoutRefilter = false ∧
    (mFiltered.appendIncomingLines envTriv ["x two".toList]).filteredLines ≠
      mFiltered.filteredLines ∧
    (mFiltered.appendIncomingLines envTriv ["x two".toList]).bookmarks ≠ [] ∧
    (mFiltered.appendIncomingLines envTriv ["x two".toList]).layoutCache ≠ [] ∧
    (mFiltered.appendIncomingLines envTriv ["x two".toList]).selectionStart ≠ none := by
  refine ⟨by decide, by decide, by decide, by decide, by decide⟩

/-- C3 amended: bookmarks, selection and the layout cache are cleared when
the FilteredView is recomputed by a filter-changing command
(`applyFilters` with `resetView = true`); an append that cannot take the
fast path also recomputes the FilteredView in full, but preserves
bookmarks, selection and the layout cache (it calls `applyFilters` with
`resetView = false`). -/
theorem c3_invalidation_on_reset (env : Env) (m : Model) :
    ((m.applyFilters env true).bookmarks = [] ∧
     (m.applyFilters env true).selectionStart = none ∧
     (m.applyFilters env true).selectionEnd = none ∧
     (m.applyFilters env true).layoutCache = []) ∧
    (∀ lines, m.canFastAppendWithoutRefilter = false →
      (m.appendIncomingLines env lines).filteredLines =
        applyFiltersPure env m.spec (m.originalLines ++ lines) ∨ lines = []) ∧
    (∀ lines, m.canFastAppendWithoutRefilter = false →
      (m.appendIncomingLines env lines).bookmarks = m.bookmarks ∧
      (m.appendIncomingLines env lines).selectionStart = m.selectionStart ∧
      (m.appendIncomingLines env lines).selectionEnd = m.selectionEnd ∧
      (m.appendIncomingLines env lines).layoutCache = m.layoutCache) := by
  have hcan : ∀ lines,
      ({ m with originalLines := m.originalLines ++ lines } : Model).canFastAppendWithoutRefilter =
        m.canFastAppendWithoutRefilter := fun _ => rfl
  have hspec : ∀ lines,
      ({ m with originalLines := m.originalLines ++ lines } : Model).spec = m.spec :=
    fun _ => rfl
  have happ : ∀ lines, lines ≠ [] →
      m.canFastAppendWithoutRefilter = false →
      m.appendIncomingLines env lines =
        Model.applyFilters env { m with originalLines := m.originalLines ++ lines } false := by
    intro lines hl h
    simp only [Model.appendIncomingLines, if_neg hl, hcan lines, h, Bool.false_eq_true,
      if_false]
  refine ⟨by simp [Model.applyFilters], ?_, ?_⟩
  · intro lines h
    by_cases hl : lines = []
    · exact Or.inr hl
    · left
      rw [happ lines hl h]
      simp only [Model.applyFilters, if_false, Bool.false_eq_true, hspec lines]
  · intro lines h
    by_cases hl : lines = []
    · rw [hl]
      simp [Model.appendIncomingLines]
    · rw [happ lines hl h]
      simp [Model.applyFilters]

/-- C3 witness: a concrete reset pass clears all three, and a concrete
non-fast-path append preserves all three. -/
theorem c3_invalidation_on_reset_witness :
    (mFiltered.applyFilters envTriv true).bookmarks = [] ∧
    (mFiltered.applyFilters envTriv true).layoutCache = [] ∧
    (mFiltered.appendIncomingLines envTriv ["x two".toList]).bookmarks =
      mFiltered.bookmarks := by
  have h := c3_invalidation_on_reset envTriv mFiltered
  exact ⟨h.1.1, h.1.2.2.2, (h.2.2 ["x two".toList] (by decide)).1⟩

/-- `splitOnNl` always yields at least one segment (Go `strings.Split`
never returns an empty slice). -/
theorem splitOnNl_ne_nil : ∀ content : List Char, splitOnNl content ≠ []
  | [] => by simp [splitOnNl]
  | c :: rest => by
    unfold splitOnNl
    split
    · simp
    · cases h : splitOnNl rest <;> simp

/-- For a nonempty tail, `getLast?` skips the head. -/
theorem lastOfCons (y : Line) (L : List Line) (h : L ≠ []) :
    (y :: L).getLast? = L.getLast? := by
  cases L with
  | nil => exact absurd rfl h
  | cons a as => exact List.getLast?_cons_cons

/-- Splitting a delta that ends in a newline yields the split of the rest
plus exactly one trailing empty segment. -/
theorem splitOnNl_append_nl :
    ∀ a : List Char, splitOnNl (a ++ ['\n']) = splitOnNl a ++ [[]]
  | [] => by simp [splitOnNl]
  | c :: a => by
    have ih := splitOnNl_append_nl a
    rw [List.cons_append]
    by_cases hc : c = '\n'
    · rw [splitOnNl, if_pos hc, ih, splitOnNl, if_pos hc]
      rfl
    · rw [splitOnNl, if_neg hc, ih]
      conv_rhs => rw [splitOnNl, if_neg hc]
      cases hsp : splitOnNl a with
      | nil => exact absurd hsp (splitOnNl_ne_nil a)
      | cons l ls => simp

/-- Splitting a delta whose last rune is not a newline leaves a nonempty
final segment ending in that rune. -/
theorem splitOnNl_append_last :
    ∀ (a : List Char) (c : Char), c ≠ '\n' →
      ∃ x, (splitOnNl (a ++ [c])).getLast? = some (x ++ [c])
  | [], c, hc => by
    refine ⟨[], ?_⟩
    simp [splitOnNl, hc]
  | d :: a, c, hc => by
    obtain ⟨x, ih⟩ := splitOnNl_append_last a c hc
    rw [List.cons_append]
    by_cases hd : d = '\n'
    · refine ⟨x, ?_⟩
      rw [splitOnNl, if_pos hd, lastOfCons _ _ (splitOnNl_ne_nil (a ++ [c]))]
      exact ih
    · rw [splitOnNl, if_neg hd]
      cases hsp : splitOnNl (a ++ [c]) with
      | nil => exact absurd hsp (splitOnNl_ne_nil (a ++ [c]))
      | cons l ls =>
        cases ls with
        | nil =>
          rw [hsp] at ih
          simp only [List.getLast?_singleton, Option.some_inj] at ih
          exact ⟨d :: x, by simp [ih]⟩
        | cons l2 ls2 =>
          refine ⟨x, ?_⟩
          rw [lastOfCons _ _ (List.cons_ne_nil l2 ls2)]
          rw [hsp] at ih
          rw [← ih]
          exact (lastOfCons l (l2 :: ls2) (List.cons_ne_nil l2 ls2)).symm

/-- C10: for a nonempty growth delta (the `Update` handler only splits
deltas with `NewContent != ""`, model.go line 225), a delta ending in a
newline splits to the raw segments minus exactly the one trailing empty
segment, and a delta not ending in a newline splits to exactly the raw
segments, keeping its final partial segment. -/
theorem c10_split_trailing_newline (content : List Char) (h : content ≠ []) :
    (content.getLast? = some '\n' →
      splitOnNl content = splitIncomingContent content ++ [[]]) ∧
    (content.getLast? ≠ some '\n' →
      splitIncomingContent content = splitOnNl content) := by
  obtain ⟨c, hc⟩ : ∃ c, content.getLast? = some c := by
    cases hx : content.getLast? with
    | none => exact absurd (List.getLast?_eq_none_iff.mp hx) h
    | some c => exact ⟨c, rfl⟩
  have hdec : content = content.dropLast ++ [c] :=
    (List.dropLast_append_getLast? c (Option.mem_def.mpr hc)).symm
  constructor
  · intro hnl
    rw [hc, Option.some_inj] at hnl
    subst hnl
    have hsplit : splitOnNl content = splitOnNl content.dropLast ++ [[]] := by
      conv_lhs => rw [hdec]
      exact splitOnNl_append_nl content.dropLast
    simp [splitIncomingContent, hsplit, List.getLast?_concat, List.dropLast_concat]
  · intro hnl
    have hcn : c ≠ '\n' := fun hx => hnl (hx ▸ hc)
    obtain ⟨x, hx⟩ := splitOnNl_append_last content.dropLast c hcn
    have hlast : (splitOnNl content).getLast? ≠ some [] := by
      rw [hdec, hx]
      simp
    simp only [splitIncomingContent]
    rw [if_neg hlast]

/-- C10 witness: `"a\nb\n"` splits to `["a", "b"]` (one trailing empty
segment removed) and `"a\nb"` splits to `["a", "b"]` (partial final segment
kept). -/
theorem c10_split_trailing_newline_witness :
    splitOnNl "a\nb\n".toList = splitIncomingContent "a\nb\n".toList ++ [[]] ∧
    splitIncomingContent "a\nb".toList = splitOnNl "a\nb".toList := by
  exact ⟨(c10_split_trailing_newline "a\nb\n".toList (by decide)).1 (by decide),
         (c10_split_trailing_newline "a\nb".toList (by decide)).2 (by decide)⟩

/-- Under the permissive fast-path conditions, a full filter pass keeps
every line and only tab-normalizes it. -/
theorem applyFiltersPure_permissive (env : Env) (m : Model)
    (h : m.canFastAppendWithoutRefilter = true) (lines : List Line) :
    applyFiltersPure env m.spec lines = lines.map tabNorm := by
  simp only [Model.canFastAppendWithoutRefilter, Bool.and_eq_true, Bool.not_eq_true',
    List.isEmpty_iff, Option.isNone_iff_eq_none] at h
  obtain ⟨⟨⟨⟨⟨⟨⟨hft, hsd⟩, hed⟩, he⟩, hw⟩, hi⟩, hd⟩, hf⟩ := h
  have hall : ∀ l, passesAll env m.spec l = true := by
    intro l
    unfold passesAll passesLevel passesDate passesText
    simp [Model.spec, hft, hsd, hed, he, hw, hi, hd]
  unfold applyFiltersPure filterStage
  have : m.spec.foldStackTraces = false := hf
  rw [this]
  simp only [Bool.false_eq_true, if_false]
  rw [List.filter_eq_self.mpr (fun l _ => hall l)]

/-- C4: under the default permissive filter spec, appending batches
incrementally via the fast path produces exactly the FilteredView of one
full filter pass over the concatenation of the original store and all
appended lines. -/
theorem c4_fast_path_equivalence (env : Env) (batches : List (List Line)) :
    ∀ m : Model, m.canFastAppendWithoutRefilter = true →
      m.filteredLines = applyFiltersPure env m.spec m.originalLines →
      (batches.foldl (fun acc b => acc.appendIncomingLines env b) m).filteredLines =
        applyFiltersPure env m.spec (m.originalLines ++ batches.flatten) := by
  induction batches with
  | nil =>
    intro m hfast hinv
    simpa using hinv
  | cons b rest ih =>
    intro m hfast hinv
    by_cases hb : b = []
    · subst hb
      rw [List.foldl_cons]
      have hm : m.appendIncomingLines env [] = m := by
        simp [Model.appendIncomingLines]
      rw [hm]
      simpa using ih m hfast hinv
    · rw [List.foldl_cons]
      have happ : m.appendIncomingLines env b =
          { m with originalLines := m.originalLines ++ b,
                   filteredLines := m.filteredLines ++ b.map tabNorm } := by
        simp only [Model.appendIncomingLines, if_neg hb]
        have hcan : ({ m with originalLines := m.originalLines ++ b } : Model).canFastAppendWithoutRefilter = true := hfast
        rw [hcan]
        simp
      have hfast2 : (m.appendIncomingLines env b).canFastAppendWithoutRefilter = true := by
        rw [happ]
        exact hfast
      have hspec2 : (m.appendIncomingLines env b).spec = m.spec := by
        rw [happ]
        rfl
      have horig : (m.appendIncomingLines env b).originalLines = m.originalLines ++ b := by
        rw [happ]
      have hinv2 : (m.appendIncomingLines env b).filteredLines =
          applyFiltersPure env (m.appendIncomingLines env b).spec
            (m.appendIncomingLines env b).originalLines := by
        rw [hspec2, horig, happ]
        show m.filteredLines ++ b.map tabNorm = _
        rw [hinv, applyFiltersPure_permissive env m hfast,
            applyFiltersPure_permissive env m hfast, List.map_append]
      rw [ih _ hfast2 hinv2, hspec2, horig]
      rw [List.flatten_cons, List.append_assoc]

/-- C4 witness: two incremental batches over a permissive-spec store equal
one full pass over the concatenation. -/
theorem c4_fast_path_equivalence_witness :
    (([["b1".toList], ["b2".toList, "c\td".toList]].foldl
        (fun (acc : Model) b => acc.appendIncomingLines envTriv b) mA).filteredLines =
      applyFiltersPure envTriv mA.spec
        (mA.originalLines ++ [["b1".toList], ["b2".toList, "c\td".toList]].flatten)) ∧
    (([["b1".toList], ["b2".toList, "c\td".toList]].foldl
        (fun (acc : Model) b => acc.appendIncomingLines envTriv b) mA).filteredLines =
      ["a".toList, "b1".toList, "b2".toList, "c    d".toList]) := by
  refine ⟨c4_fast_path_equivalence envTriv [["b1".toList], ["b2".toList, "c\td".toList]] mA rfl (by decide), by decide⟩

/-- `foldRunsSpec` factors through its leading maximal indented run. -/
theorem foldRunsSpec_flush (env : Env) (ls : List Line) :
    foldRunsSpec env ls =
      flushTrace env (ls.takeWhile isIndented) ++
        foldRunsSpec env (ls.dropWhile isIndented) := by
  cases ls with
  | nil => simp [flushTrace]
  | cons l t =>
    by_cases hl : isIndented l
    · rw [foldRunsSpec, if_pos hl, List.takeWhile_cons, if_pos hl,
          List.dropWhile_cons, if_pos hl]
      have hne : (l :: t.takeWhile isIndented).length ≠ 0 := by simp
      unfold flushTrace
      rw [if_neg hne]
    · rw [foldRunsSpec, if_neg hl, List.takeWhile_cons, if_neg hl,
          List.dropWhile_cons, if_neg hl]
      simp [flushTrace]
      conv_rhs => rw [foldRunsSpec]
      rw [if_neg hl]

/-- The buffered fold loop computes the run-based spec fold. -/
theorem foldLoop_eq_spec (env : Env) :
    ∀ (ls : List Line) (buf : List Line),
      foldLoop env ls buf =
        flushTrace env (buf ++ ls.takeWhile isIndented) ++
          foldRunsSpec env (ls.dropWhile isIndented)
  | [], buf => by simp [foldLoop, foldRunsSpec]
  | l :: t, buf => by
    by_cases hl : isIndented l
    · rw [foldLoop, if_pos hl, foldLoop_eq_spec env t (buf ++ [l]),
          List.takeWhile_cons, if_pos hl, List.dropWhile_cons, if_pos hl,
          List.append_assoc]
      rfl
    · rw [foldLoop, if_neg hl, foldLoop_eq_spec env t [],
          List.takeWhile_cons, if_neg hl, List.dropWhile_cons, if_neg hl,
          List.append_nil, List.nil_append,
          foldRunsSpec, if_neg hl, ← foldRunsSpec_flush env t]

/-- C6: the fold stage equals the run-based specification — every maximal
run of exactly 1 indented line is emitted unchanged and every maximal run
of `k ≥ 2` indented lines collapses to exactly one summary line stating
`k` (both encoded in `foldRunsSpec`) — and a line is indented exactly when
its first rune is a tab or it starts with two spaces. -/
theorem c6_fold_runs (env : Env) :
    (∀ lines : List Line, foldStage env lines = foldRunsSpec env lines) ∧
    (∀ l : Line, isIndented l = true ↔
      l.head? = some '\t' ∨ [' ', ' '].isPrefixOf l = true) := by
  constructor
  · intro lines
    rw [foldStage, foldLoop_eq_spec env lines [], List.nil_append,
        ← foldRunsSpec_flush env lines]
  · intro l
    unfold isIndented
    cases l with
    | nil => simp [List.isPrefixOf]
    | cons c t =>
      simp only [Bool.or_eq_true, List.head?_cons, Option.some_inj]
      constructor
      · rintro (h | h)
        · left
          have : ['\t'].isPrefixOf (c :: t) = true := h
          rw [List.isPrefixOf_iff_prefix] at this
          rcases List.prefix_iff_eq_take.mp this with heq
          simpa using congrArg List.head? heq.symm
        · right
          exact h
      · rintro (h | h)
        · left
          subst h
          simp [List.isPrefixOf]
        · right
          exact h

/-- `clampY` postcondition: the clamped offset lies in
`[0, max 0 (len - height)]`, and the view dimensions are untouched. -/
theorem clampY_bounds (m : Model) :
    0 ≤ m.clampY.yOffset ∧
    m.clampY.yOffset ≤ max 0 ((m.clampY.filteredLines.length : Int) - m.clampY.viewportHeight) := by
  have hfl : m.clampY.filteredLines = m.filteredLines := rfl
  have hvh : m.clampY.viewportHeight = m.viewportHeight := rfl
  rw [hfl, hvh]
  unfold Model.clampY
  dsimp only
  split <;> split <;> omega

/-- C7 counterexample: a resize returns from `Update` before the clamp, so
growing the window height leaves the scroll offset above
`max 0 (len(FilteredView) - height)`. -/
theorem c7_resize_skips_clamp_counterexample :
    mTall.yOffset ≤
      max 0 ((mTall.filteredLines.length : Int) - mTall.viewportHeight) ∧
    ¬ ((mTall.update envTriv (Msg.windowSize 80 56)).yOffset ≤
        max 0 (((mTall.update envTriv (Msg.windowSize 80 56)).filteredLines.length : Int) -
          (mTall.update envTriv (Msg.windowSize 80 56)).viewportHeight)) := by
  refine ⟨by decide, by decide⟩

/-- C7 amended: after every modelled `Update` message that reaches the
final clamp — every scroll, append and filter-change path; everything
except the resize handler's early return and the `esc`-with-selection
early return — the vertical scroll offset lies in
`[0, max 0 (len(FilteredView) - height)]`. -/
theorem c7_clamp_after_update (env : Env) (m : Model) (msg : Msg)
    (h : reachesFinalClamp m msg = true) :
    0 ≤ (m.update env msg).yOffset ∧
    (m.update env msg).yOffset ≤
      max 0 (((m.update env msg).filteredLines.length : Int) -
        (m.update env msg).viewportHeight) := by
  cases msg with
  | fileChange newContent newOffset => exact clampY_bounds _
  | logChunk lines => exact clampY_bounds _
  | windowSize w hh => simp [reachesFinalClamp] at h
  | key k =>
    simp only [reachesFinalClamp, Bool.not_eq_true', Bool.and_eq_false_iff,
      decide_eq_false_iff_not] at h
    simp only [Model.update]
    rcases h with h | h
    · rw [if_neg (fun hx => h hx.1)]
      exact clampY_bounds _
    · rw [if_neg (fun hx => by rw [hx.2] at h; exact absurd h (by decide))]
      exact clampY_bounds _
  | wheelUp modifier => exact clampY_bounds _
  | wheelDown modifier => exact clampY_bounds _

/-- C7 witness: a concrete scroll-down lands inside the clamp interval. -/
theorem c7_clamp_after_update_witness :
    0 ≤ (mTall.update envTriv (Msg.key Key.down)).yOffset ∧
    (mTall.update envTriv (Msg.key Key.down)).yOffset ≤
      max 0 (((mTall.update envTriv (Msg.key Key.down)).filteredLines.length : Int) -
        (mTall.update envTriv (Msg.key Key.down)).viewportHeight) :=
  c7_clamp_after_update envTriv mTall (Msg.key Key.down) (by decide)

/-- `chunked` unfolds over take/drop on a nonempty list for a positive
chunk size. -/
theorem chunked_cons (n : Nat) (hn : 1 ≤ n) (l : List Line) (hl : l ≠ []) :
    chunked n l = l.take n :: chunked n (l.drop n) := by
  cases l with
  | nil => exact absurd rfl hl
  | cons x xs =>
    rw [chunked]
    obtain ⟨k, rfl⟩ : ∃ k, n = k + 1 := ⟨n - 1, by omega⟩
    rw [List.drop_succ_cons]
    simp

/-- With all lines arriving inside one flush interval (stamp 0, so the time
condition never fires), the loop flushes exactly at the count threshold:
the result is the size-`n` chunking of the pending buffer and the input. -/
theorem streamLoop_stamp_zero (cfg : StreamerCfg) (hn : 1 ≤ cfg.batchLines) :
    ∀ (l : List Line) (batch : List Line), batch.length < cfg.batchLines →
      streamLoop cfg (l.map (fun x => (x, 0))) batch 0 =
        chunked cfg.batchLines (batch ++ l)
  | [], batch => by
    intro hb
    rw [List.map_nil, streamLoop, List.append_nil]
    cases hbatch : batch with
    | nil => simp [chunked]
    | cons b bs =>
      rw [chunked]
      have h1 : (b :: bs).take cfg.batchLines = b :: bs := by
        apply List.take_of_length_le
        rw [← hbatch]
        omega
      have h2 : bs.drop (cfg.batchLines - 1) = [] := by
        apply List.drop_eq_nil_of_le
        have : bs.length + 1 = batch.length := by rw [hbatch]; rfl
        omega
      rw [h1, h2]
      simp [chunked]
  | x :: xs, batch => by
    intro hb
    rw [List.map_cons, streamLoop]
    have htime : ¬((0 : Nat) - 0 > cfg.flushEvery) := by omega
    have hlx : (batch ++ [x]).length = batch.length + 1 := by simp
    by_cases hlen : (batch ++ [x]).length ≥ cfg.batchLines
    · have hcond : (decide ((batch ++ [x]).length ≥ cfg.batchLines) ||
          decide ((0 : Nat) - 0 > cfg.flushEvery)) = true := by
        rw [Bool.or_eq_true]
        left
        rwa [decide_eq_true_eq]
      rw [if_pos hcond]
      have hlen2 : (batch ++ [x]).length = cfg.batchLines := by
        rw [hlx] at hlen ⊢
        omega
      rw [streamLoop_stamp_zero cfg hn xs [] (by simp only [List.length_nil]; omega)]
      have hcons : batch ++ x :: xs = (batch ++ [x]) ++ xs := by
        rw [List.append_assoc]
        rfl
      rw [hcons, chunked_cons cfg.batchLines hn ((batch ++ [x]) ++ xs)
            (by simp), List.take_left' hlen2, List.drop_left' hlen2]
      simp
    · have hcond : ¬ ((decide ((batch ++ [x]).length ≥ cfg.batchLines) ||
          decide ((0 : Nat) - 0 > cfg.flushEvery)) = true) := by
        simp only [Bool.or_eq_true, decide_eq_true_eq]
        rintro (h | h)
        · exact hlen h
        · exact htime h
      rw [if_neg hcond]
      rw [streamLoop_stamp_zero cfg hn xs (batch ++ [x]) (Nat.lt_of_not_le hlen)]
      rw [List.append_assoc]
      rfl

/-- The loop loses no line: the concatenation of all emitted batches is
the pending buffer followed by every input line, in order (end-of-stream
included). -/
theorem streamLoop_flatten (cfg : StreamerCfg) :
    ∀ (input : List (Line × Nat)) (batch : List Line) (lastSend : Nat),
      (streamLoop cfg input batch lastSend).flatten = batch ++ input.map Prod.fst
  | [], batch, lastSend => by
    rw [streamLoop]
    cases batch <;> simp
  | (l, t) :: rest, batch, lastSend => by
    rw [streamLoop]
    split
    · rw [List.flatten_cons, streamLoop_flatten cfg rest [] t]
      simp
    · rw [streamLoop_flatten cfg rest (batch ++ [l]) lastSend]
      simp

/-- C9: the batcher flushes on whichever of the two conditions fires first —
(i) with every line arriving within one interval, the output is exactly
the size-threshold chunking (full batches plus a final remainder);
(ii) a line arriving after more than the flush interval triggers an
immediate partial flush even though the threshold is not reached;
(iii) no line is lost: the batches concatenate, in order, to the input,
end-of-stream flushing any remainder. -/
theorem c9_batcher_flush (cfg : StreamerCfg) :
    (∀ lines : List Line, 1 ≤ cfg.batchLines →
      streamBatches cfg (lines.map (fun x => (x, 0))) = chunked cfg.batchLines lines) ∧
    (∀ (l : Line) (t : Nat) (rest : List (Line × Nat)),
      2 ≤ cfg.batchLines → cfg.flushEvery < t →
      streamBatches cfg ((l, t) :: rest) = [l] :: streamLoop cfg rest [] t) ∧
    (∀ input : List (Line × Nat),
      (streamBatches cfg input).flatten = input.map Prod.fst) := by
  refine ⟨?_, ?_, ?_⟩
  · intro lines hn
    rw [streamBatches, streamLoop_stamp_zero cfg hn lines [] (by simp only [List.length_nil]; omega)]
    rfl
  · intro l t rest hn ht
    rw [streamBatches, streamLoop]
    rw [if_pos ?_]
    · rfl
    · simp only [List.nil_append, List.length_cons, List.length_nil, ge_iff_le,
        Bool.or_eq_true, decide_eq_true_eq]
      right
      omega
  · intro input
    rw [streamBatches, streamLoop_flatten cfg input [] 0]
    rfl

/-- C9 witness: with threshold 2, five same-stamp lines split into two full
batches plus a remainder; with threshold 100, a first line arriving after
the 50-unit interval flushes alone, and nothing is lost. -/
theorem c9_batcher_flush_witness :
    streamBatches ⟨2, 50⟩
        [(['a'], 0), (['b'], 0), (['c'], 0), (['d'], 0), (['e'], 0)] =
      [[['a'], ['b']], [['c'], ['d']], [['e']]] ∧
    streamBatches ⟨100, 50⟩ [(['a'], 60), (['b'], 60)] = [[['a']], [['b']]] ∧
    (streamBatches ⟨100, 50⟩ [(['a'], 60), (['b'], 60)]).flatten = [['a'], ['b']] := by
  have h1 := (c9_batcher_flush ⟨2, 50⟩).1 [['a'], ['b'], ['c'], ['d'], ['e']] (by decide)
  have h2 := (c9_batcher_flush ⟨100, 50⟩).2.1 ['a'] 60 [(['b'], 60)] (by decide) (by decide)
  have h3 := (c9_batcher_flush ⟨100, 50⟩).2.2 [(['a'], 60), (['b'], 60)]
  refine ⟨?_, ?_, ?_⟩
  · rw [show ([(['a'], 0), (['b'], 0), (['c'], 0), (['d'], 0), (['e'], 0)] :
        List (Line × Nat)) =
        ([['a'], ['b'], ['c'], ['d'], ['e']] : List Line).map (fun x => (x, 0)) from rfl, h1]
    simp [chunked]
  · rw [h2]
    decide
  · rw [h3]
    decide

/-- The in-line column math never returns a negative column. -/
theorem resolveInLine_nonneg (env : Env) (b : Bool) (x : Int) (clean : Line)
    (parts : List Line) (localRow : Nat) :
    0 ≤ resolveInLine env b x clean parts localRow := by
  unfold resolveInLine
  dsimp only
  split
  · split <;> omega
  · positivity

/-- The wrap-mode walk either falls through to the sentinel `(-1, -1)` or
lands on a line inside the walked slice with a nonnegative column. -/
theorem resolveWrapLoop_range (env : Env) (width : Int)
    (cache : List (Int × List Line)) (bms : List Int) (x y : Int) :
    ∀ (rest : List Line) (idx curY : Int),
      resolveWrapLoop env width cache bms x y rest idx curY = (-1, -1) ∨
      (idx ≤ (resolveWrapLoop env width cache bms x y rest idx curY).1 ∧
       (resolveWrapLoop env width cache bms x y rest idx curY).1 < idx + rest.length ∧
       0 ≤ (resolveWrapLoop env width cache bms x y rest idx curY).2)
  | [], idx, curY => Or.inl rfl
  | line :: rest, idx, curY => by
    rw [resolveWrapLoop]
    cases hcl : cacheLookup cache idx with
    | some p =>
      dsimp only
      split
      · right
        refine ⟨le_refl _, ?_, resolveInLine_nonneg _ _ _ _ _ _⟩
        simp only [List.length_cons]
        omega
      · rcases resolveWrapLoop_range env width cache bms x y rest (idx + 1) _ with h | h
        · exact Or.inl h
        · right
          refine ⟨by omega, ?_, h.2.2⟩
          have := h.2.1
          simp only [List.length_cons]
          omega
    | none =>
      dsimp only
      split
      · right
        refine ⟨le_refl _, ?_, resolveInLine_nonneg _ _ _ _ _ _⟩
        simp only [List.length_cons]
        omega
      · rcases resolveWrapLoop_range env width cache bms x y rest (idx + 1) _ with h | h
        · exact Or.inl h
        · right
          refine ⟨by omega, ?_, h.2.2⟩
          have := h.2.1
          simp only [List.length_cons]
          omega

/-- C2 counterexample: on a one-line wrapped store, clicking below the
wrapped content returns the in-band sentinel `(-1, -1)` — an out-of-range
result, not the nearest valid boundary position the claim asserts. -/
theorem c2_out_of_range_counterexample :
    mShort.resolvePos envTriv 0 5 = (-1, -1) ∧
    ¬ (0 ≤ (mShort.resolvePos envTriv 0 5).1 ∧
       (mShort.resolvePos envTriv 0 5).1 < (mShort.filteredLines.length : Int)) := by
  refine ⟨by decide, by decide⟩

/-- C2 amended: the embedded `resolvePos` is total (never panics) for the
coordinates its callers produce, but an out-of-range coordinate does not
resolve to a nearest valid boundary: in wrap mode the result is either a
valid position — line inside the filtered store at or after the scroll
offset, nonnegative column — or exactly the sentinel `(-1, -1)`, which the
call sites guard with a bounds check (model.go lines 317, 324). -/
theorem c2_wrap_sentinel_or_valid (env : Env) (m : Model) (x y : Int)
    (hw : m.wrap = true) (hy : 0 ≤ m.yOffset) :
    m.resolvePos env x y = (-1, -1) ∨
    (m.yOffset ≤ (m.resolvePos env x y).1 ∧
     (m.resolvePos env x y).1 < (m.filteredLines.length : Int) ∧
     0 ≤ (m.resolvePos env x y).2) := by
  have hres : m.resolvePos env x y =
      resolveWrapLoop env m.resolveWidth m.layoutCache m.bookmarks x y
        (m.filteredLines.drop m.yOffset.toNat) m.yOffset 0 := by
    unfold Model.resolvePos
    rw [hw]
    rfl
  rw [hres]
  rcases resolveWrapLoop_range env m.resolveWidth m.layoutCache m.bookmarks x y
      (m.filteredLines.drop m.yOffset.toNat) m.yOffset 0 with h | h
  · exact Or.inl h
  · right
    refine ⟨h.1, ?_, h.2.2⟩
    have hlen := h.2.1
    rw [List.length_drop] at hlen
    omega

/-- C2 witness: an in-range click on the wrapped one-line store resolves to
a valid position. -/
theorem c2_wrap_sentinel_or_valid_witness :
    mShort.resolvePos envTriv 0 0 = (-1, -1) ∨
    (mShort.yOffset ≤ (mShort.resolvePos envTriv 0 0).1 ∧
     (mShort.resolvePos envTriv 0 0).1 < (mShort.filteredLines.length : Int) ∧
     0 ≤ (mShort.resolvePos envTriv 0 0).2) :=
  c2_wrap_sentinel_or_valid envTriv mShort 0 0 rfl (by decide)

/-- Go `delete` removes exactly the requested key: the deleted entry. -/
theorem cacheLookup_erase_self (c : List (Int × List Line)) (i : Int) :
    cacheLookup (cacheErase c i) i = none := by
  induction c with
  | nil => rfl
  | cons e t ih =>
    unfold cacheErase at ih ⊢
    rw [List.filter_cons]
    by_cases he : e.1 = i
    · rw [if_neg (by simp [he])]
      exact ih
    · rw [if_pos (by simp [he])]
      unfold cacheLookup at ih ⊢
      have hd : (decide (e.1 = i)) = false := by simp [he]
      rw [List.find?_cons, hd]
      exact ih

/-- Go `delete` removes exactly the requested key: every other key is
untouched. -/
theorem cacheLookup_erase_ne (c : List (Int × List Line)) (i j : Int)
    (h : j ≠ i) :
    cacheLookup (cacheErase c i) j = cacheLookup c j := by
  induction c with
  | nil => rfl
  | cons e t ih =>
    unfold cacheErase at ih ⊢
    rw [List.filter_cons]
    by_cases he : e.1 = i
    · rw [if_neg (by simp [he])]
      rw [ih]
      unfold cacheLookup
      have hd : (decide (e.1 = j)) = false := by
        simp [he]
        omega
      rw [List.find?_cons, hd]
    · rw [if_pos (by simp [he])]
      unfold cacheLookup at ih ⊢
      cases hej : (decide (e.1 = j)) with
      | true => rw [List.find?_cons, List.find?_cons, hej]
      | false =>
        rw [List.find?_cons, List.find?_cons, hej]
        exact ih

/-- Toggling one bookmark key leaves membership of every other key
unchanged. -/
theorem bmMem_toggle_ne (bs : List Int) (row i : Int) (h : i ≠ row) :
    bmMem (bmToggle bs row) i = bmMem bs i := by
  unfold bmToggle
  split
  · simp [bmMem, List.mem_erase_of_ne h]
  · simp [bmMem, h]

/-- When every cached entry the walk can meet agrees with a fresh wrap of
the decorated line it is keyed by, the walk's result does not depend on
the cache at all. -/
theorem resolveWrapLoop_consistent (env : Env) (width : Int) (bms : List Int)
    (x y : Int) (cache : List (Int × List Line)) :
    ∀ (rest : List Line) (idx curY : Int),
      (∀ (k : Nat) (l : Line), rest[k]? = some l →
        ∀ parts, cacheLookup cache (idx + k) = some parts →
          parts = env.wrapText width (decoratePlain env (bmMem bms (idx + k)) l)) →
      resolveWrapLoop env width cache bms x y rest idx curY =
        resolveWrapLoop env width [] bms x y rest idx curY
  | [], idx, curY => fun _ => rfl
  | line :: rest, idx, curY => by
    intro H
    have hnil : cacheLookup ([] : List (Int × List Line)) idx = none := rfl
    have hshift : ∀ (k : Nat) (l : Line), rest[k]? = some l →
        ∀ parts, cacheLookup cache (idx + 1 + k) = some parts →
          parts = env.wrapText width (decoratePlain env (bmMem bms (idx + 1 + k)) l) := by
      intro k l hget parts hp
      have harith : idx + 1 + (k : Int) = idx + ((k + 1 : Nat) : Int) := by
        push_cast
        ring
      rw [harith] at hp
      have := H (k + 1) l (by simpa using hget) parts hp
      rw [harith]
      exact this
    rw [resolveWrapLoop, resolveWrapLoop, hnil]
    cases hcl : cacheLookup cache idx with
    | none =>
      dsimp only
      split
      · rfl
      · exact resolveWrapLoop_consistent env width bms x y cache rest (idx + 1) _ hshift
    | some p =>
      have hp : p = env.wrapText width (decoratePlain env (bmMem bms idx) line) := by
        have := H 0 line (by simp) p (by simpa using hcl)
        simpa using this
      rw [hp]
      dsimp only
      split
      · rfl
      · exact resolveWrapLoop_consistent env width bms x y cache rest (idx + 1) _ hshift

/-- C8: toggling the bookmark on the current line (`"m"`, which acts on
the top visible line) removes exactly that line's layout-cache entry —
every other entry is untouched — and, provided the surviving entries were
coherent, they stay coherent for the new decoration state and a subsequent
resolve behaves exactly as with a fully cleared cache: the toggled line's
layout is recomputed from its new decoration, with no full reset needed. -/
theorem c8_bookmark_cache_coherence (env : Env) (m : Model) :
    cacheLookup (m.update env (Msg.key Key.bookmark)).layoutCache m.yOffset = none ∧
    (∀ j, j ≠ m.yOffset →
      cacheLookup (m.update env (Msg.key Key.bookmark)).layoutCache j =
        cacheLookup m.layoutCache j) ∧
    (cacheConsistent env m →
      cacheConsistent env (m.update env (Msg.key Key.bookmark)) ∧
      ∀ x y, (m.update env (Msg.key Key.bookmark)).resolvePos env x y =
        ({ m.update env (Msg.key Key.bookmark) with
            layoutCache := [] } : Model).resolvePos env x y) := by
  have hupd : m.update env (Msg.key Key.bookmark) =
      (m.handleKey env Key.bookmark).clampY := rfl
  have hcache : (m.update env (Msg.key Key.bookmark)).layoutCache =
      cacheErase m.layoutCache m.yOffset := rfl
  have hbms : (m.update env (Msg.key Key.bookmark)).bookmarks =
      bmToggle m.bookmarks m.yOffset := rfl
  have hy0 : 0 ≤ (m.update env (Msg.key Key.bookmark)).yOffset := by
    rw [hupd]
    exact (clampY_bounds _).1
  refine ⟨?_, ?_, ?_⟩
  · rw [hcache]
    exact cacheLookup_erase_self m.layoutCache m.yOffset
  · intro j hj
    rw [hcache]
    exact cacheLookup_erase_ne m.layoutCache m.yOffset j hj
  · intro hcons
    have hcons1 : cacheConsistent env (m.update env (Msg.key Key.bookmark)) := by
      intro i parts hp
      by_cases hi : i = m.yOffset
      · rw [hi, hcache, cacheLookup_erase_self] at hp
        exact absurd hp (by simp)
      · rw [hcache, cacheLookup_erase_ne _ _ _ hi] at hp
        have h0 := hcons i parts hp
        show parts = env.wrapText _ (decoratePlain env
          (bmMem (m.update env (Msg.key Key.bookmark)).bookmarks i) _)
        rw [hbms, bmMem_toggle_ne m.bookmarks m.yOffset i hi]
        exact h0
    refine ⟨hcons1, ?_⟩
    intro x y
    cases hw : (m.update env (Msg.key Key.bookmark)).wrap with
    | false =>
      unfold Model.resolvePos
      rw [show ({ m.update env (Msg.key Key.bookmark) with
            layoutCache := [] } : Model).wrap =
          (m.update env (Msg.key Key.bookmark)).wrap from rfl, hw]
      rfl
    | true =>
      unfold Model.resolvePos
      rw [show ({ m.update env (Msg.key Key.bookmark) with
            layoutCache := [] } : Model).wrap =
          (m.update env (Msg.key Key.bookmark)).wrap from rfl, hw]
      dsimp only
      apply resolveWrapLoop_consistent
      intro k l hget parts hp
      have hi := hcons1 ((m.update env (Msg.key Key.bookmark)).yOffset + k) parts hp
      have htn : (((m.update env (Msg.key Key.bookmark)).yOffset + (k : Int))).toNat =
          (m.update env (Msg.key Key.bookmark)).yOffset.toNat + k := by
        omega
      rw [htn] at hi
      have hg : (m.update env (Msg.key Key.bookmark)).filteredLines.getD
          ((m.update env (Msg.key Key.bookmark)).yOffset.toNat + k) [] = l := by
        rw [List.getD_eq_getElem?_getD, ← List.getElem?_drop, hget]
        rfl
      rw [hg] at hi
      exact hi

/-- C8 witness: a concrete toggle on the `"Hello World"` store (empty
cache is vacuously coherent): the toggled line's entry is absent, another
line's entry is untouched, and a concrete resolve equals the cleared-cache
resolve. -/
theorem c8_bookmark_cache_coherence_witness :
    cacheLookup (mHello.update envTriv (Msg.key Key.bookmark)).layoutCache
        mHello.yOffset = none ∧
    cacheLookup (mHello.update envTriv (Msg.key Key.bookmark)).layoutCache 1 =
      cacheLookup mHello.layoutCache 1 ∧
    (mHello.update envTriv (Msg.key Key.bookmark)).resolvePos envTriv 4 0 =
      ({ mHello.update envTriv (Msg.key Key.bookmark) with
          layoutCache := [] } : Model).resolvePos envTriv 4 0 := by
  have h := c8_bookmark_cache_coherence envTriv mHello
  have hvac : cacheConsistent envTriv mHello := by
    intro i parts hp
    rw [show mHello.layoutCache = [] from rfl] at hp
    simp [cacheLookup] at hp
  exact ⟨h.1, h.2.1 1 (by decide), (h.2.2 hvac).2 4 0⟩

end LV
